import Mathlib

/-
Verification of the stream-normalization engine of the diary-insight-agent
frontend: the Bedrock Converse SSE parser
(frontend/src/lib/agentcore-client/parsers/converse.ts) and the segment
assembler embedded in the streaming-event handler of
frontend/src/components/chat/ChatInterface.tsx.

The embedding models JavaScript runtime values (JSON.parse output) with an
explicit Json type, JavaScript property access and truthiness explicitly,
and the mutable ToolCall objects of the assembler with an explicit heap of
calls addressed by reference index, so that the object aliasing between the
segment list and the tool-call map is preserved.
-/

set_option maxHeartbeats 1000000
set_option maxRecDepth 4000

/-- Model of a JavaScript JSON value (the result of JSON.parse). -/
inductive Json where
  | null : Json
  | bool (b : Bool) : Json
  | num (n : Int) : Json
  | str (s : String) : Json
  | arr (elems : List Json) : Json
  | obj (fields : List (String × Json)) : Json

/-- Field lookup on a JSON object: j.k in JavaScript, where absence is
modelled as none (undefined). Access on a non-object value yields
undefined, as JavaScript property access on primitives does for
properties they do not have. -/
def jsonFind : List (String × Json) → String → Option Json
  | [], _ => none
  | (k, v) :: rest, key => if k = key then some v else jsonFind rest key

def Json.getField : Json → String → Option Json
  | .obj fields, key => jsonFind fields key
  | _, _ => none

/-- Optional-chained property access a?.k on a possibly-undefined value. -/
def jsGet (v : Option Json) (key : String) : Option Json :=
  v.bind (fun j => j.getField key)

/-- JavaScript truthiness of a possibly-undefined value: undefined, null,
false, 0, and the empty string are falsy; everything else is truthy. -/
def jsTruthy : Option Json → Bool
  | none => false
  | some .null => false
  | some (.bool b) => b
  | some (.num n) => n != 0
  | some (.str s) => s != ""
  | some (.arr _) => true
  | some (.obj _) => true

/-- JavaScript `typeof v being the string object`: true for objects,
arrays and null. -/
def jsIsObjectType : Option Json → Bool
  | some .null => true
  | some (.arr _) => true
  | some (.obj _) => true
  | _ => false

/-- A canonical StreamEvent as emitted by a parser at the JavaScript level:
field payloads are raw runtime values, which may be undefined (none)
because the source reads them from untyped JSON. -/
inductive JsEvent where
  | text (content : Json) : JsEvent
  | tool_use_start (toolUseId : Option Json) (name : Option Json) : JsEvent
  | tool_use_delta (toolUseId : Option Json) (input : Json) : JsEvent
  | tool_result (toolUseId : Option Json) (result : Option Json) : JsEvent
  | message (role : Option Json) : JsEvent
  | result (stopReason : Option Json) : JsEvent
  | lifecycle (event : String) : JsEvent

/-- The module-level mutable state of converse.ts: the variable
currentToolUseId, declared at module scope with initializer the empty
string. It is typed string in the source but assigned from an untyped
JSON field, so it is modelled as a possibly-undefined runtime value. -/
structure ConverseState where
  currentToolUseId : Option Json

/-- The value of currentToolUseId when the converse.ts module is loaded. -/
def initConverseState : ConverseState := ⟨some (Json.str "")⟩

/-- The body of parseConverseChunk after a successful JSON.parse
(converse.ts lines 26-68): an if-chain that emits at most one event per
frame and returns after the first matching category. Returns the list of
events passed to the callback together with the updated module state. -/
def parseConverseData (st : ConverseState) (json : Json) : List JsEvent × ConverseState :=
  let event := json.getField "event"
  if jsTruthy event then
    let cbdText := jsGet (jsGet (jsGet event "contentBlockDelta") "delta") "text"
    if jsTruthy cbdText then
      ([JsEvent.text (cbdText.getD Json.null)], st)
    else
      let toolUse := jsGet (jsGet (jsGet event "contentBlockStart") "start") "toolUse"
      if jsTruthy toolUse then
        let tid := jsGet toolUse "toolUseId"
        ([JsEvent.tool_use_start tid (jsGet toolUse "name")], { currentToolUseId := tid })
      else
        let input := jsGet (jsGet (jsGet (jsGet event "contentBlockDelta") "delta") "toolUse") "input"
        if jsTruthy input then
          ([JsEvent.tool_use_delta st.currentToolUseId (input.getD Json.null)], st)
        else
          let stopReason := jsGet (jsGet event "messageStop") "stopReason"
          if jsTruthy stopReason then
            ([JsEvent.result stopReason], st)
          else
            if jsTruthy (jsGet event "messageStart") then
              ([JsEvent.lifecycle "message_start"], st)
            else
              ([], st)
  else
    let res := json.getField "result"
    if jsTruthy res then
      ([JsEvent.result
          (if jsIsObjectType res then jsGet res "stop_reason"
           else some (Json.str "end_turn"))], st)
    else
      ([], st)

/-- The full parseConverseChunk (converse.ts lines 16-72) over one raw SSE
line. JSON.parse belongs to the JavaScript runtime, not to this
repository, so it is passed in as a function that either returns a value
or throws (Except.error); the try/catch of the source is the match on
that result. The third component is the diagnostic written to
console.debug by the catch block (none when nothing is logged). -/
def parseConverseChunk (jsonParse : String → Except String Json)
    (st : ConverseState) (line : String) :
    List JsEvent × ConverseState × Option String :=
  if line.startsWith "data: " then
    let data := (line.drop 6).trim
    if data = "" then ([], st, none)
    else
      match jsonParse data with
      | Except.ok json =>
        let (events, st2) := parseConverseData st json
        (events, st2, none)
      | Except.error _ => ([], st, some ("Failed to parse converse event: " ++ data))
  else
    ([], st, none)

/-- Running the converse parser over a sequence of already-parsed frames,
threading the module-level state and concatenating the emitted events. -/
def runConverseData (st : ConverseState) : List Json → List JsEvent × ConverseState
  | [] => ([], st)
  | j :: rest =>
    let (events, st2) := parseConverseData st j
    let (events2, st3) := runConverseData st2 rest
    (events ++ events2, st3)

/-- Category predicate, from the Schema-B wire format: the frame carries a
truthy event.contentBlockDelta.delta.text (a text frame). -/
def matchesTextCat (j : Json) : Bool :=
  jsTruthy (jsGet (jsGet (jsGet (j.getField "event") "contentBlockDelta") "delta") "text")

/-- Category predicate, from the Schema-B wire format: the frame carries a
truthy event.contentBlockStart.start.toolUse (a tool-use-start frame). -/
def matchesToolStartCat (j : Json) : Bool :=
  jsTruthy (jsGet (jsGet (jsGet (j.getField "event") "contentBlockStart") "start") "toolUse")

/-- The text payload of a Schema-B text frame. -/
def textCatValue (j : Json) : Json :=
  (jsGet (jsGet (jsGet (j.getField "event") "contentBlockDelta") "delta") "text").getD Json.null

/-- Category predicate, from the Schema-B wire format: the frame carries a
truthy event.contentBlockDelta.delta.toolUse.input (a tool-input-delta
frame). -/
def matchesToolDeltaCat (j : Json) : Bool :=
  jsTruthy (jsGet (jsGet (jsGet (jsGet (j.getField "event") "contentBlockDelta") "delta")
    "toolUse") "input")

/-- Category predicate, from the Schema-B wire format: the frame carries a
truthy event.messageStop.stopReason (a result frame). -/
def matchesStopCat (j : Json) : Bool :=
  jsTruthy (jsGet (jsGet (j.getField "event") "messageStop") "stopReason")

/-- Category predicate, from the Schema-B wire format: the frame carries a
truthy event.messageStart (a lifecycle frame). -/
def matchesLifecycleCat (j : Json) : Bool :=
  jsTruthy (jsGet (j.getField "event") "messageStart")

/-- The toolUse object of a Schema-B tool-use-start frame. -/
def toolUsePath (j : Json) : Option Json :=
  jsGet (jsGet (jsGet (j.getField "event") "contentBlockStart") "start") "toolUse"

/-- The input payload of a Schema-B tool-input-delta frame. -/
def inputCatValue (j : Json) : Json :=
  (jsGet (jsGet (jsGet (jsGet (j.getField "event") "contentBlockDelta") "delta")
    "toolUse") "input").getD Json.null

/-- The stopReason value of a Schema-B messageStop frame. -/
def stopCatValue (j : Json) : Option Json :=
  jsGet (jsGet (j.getField "event") "messageStop") "stopReason"

/-- True exactly for tool_result events. -/
def JsEvent.isToolResult : JsEvent → Bool
  | .tool_result _ _ => true
  | _ => false

/-- True exactly for message events. -/
def JsEvent.isMessage : JsEvent → Bool
  | .message _ => true
  | _ => false

/-- Lifecycle status of a tool call (ChatInterface types: ToolCallStatus). -/
inductive ToolStatus where
  | streaming : ToolStatus
  | executing : ToolStatus
  | complete : ToolStatus
deriving DecidableEq

/-- A ToolCall record as built by ChatInterface.tsx: correlation id, tool
name, accumulated serialized input, optional result text, and status. -/
structure ToolCall where
  toolUseId : String
  name : String
  input : String
  result : Option String
  status : ToolStatus
deriving DecidableEq

/-- A message segment. In the source a tool segment holds a reference to
the same mutable ToolCall object that the tool-call map holds; here that
shared object lives in an explicit heap of calls and the segment stores
its index, so aliasing is preserved exactly. -/
inductive MessageSegment where
  | text (content : String) : MessageSegment
  | tool (ref : Nat) : MessageSegment
deriving DecidableEq

/-- A canonical StreamEvent as consumed by the assembler, with the field
types declared in the frontend StreamEvent union. -/
inductive StreamEvent where
  | text (content : String) : StreamEvent
  | tool_use_start (toolUseId : String) (name : String) : StreamEvent
  | tool_use_delta (toolUseId : String) (input : String) : StreamEvent
  | tool_result (toolUseId : String) (result : String) : StreamEvent
  | message (role : String) : StreamEvent
  | result (stopReason : String) : StreamEvent
  | lifecycle (event : String) : StreamEvent
deriving DecidableEq

/-- The per-turn state of the segment assembler in sendMessage
(ChatInterface.tsx lines 104-123): the segments array, the toolCallMap
(insertion-ordered, modelled as an association list of heap indices), the
heap of ToolCall objects those indices address, and the two fields of the
assistant message that updateMessage last wrote (flat content string and
the captured segments array). -/
structure AsmState where
  segments : List MessageSegment
  calls : List ToolCall
  toolCallMap : List (String × Nat)
  msgContent : String
  msgSegments : List MessageSegment
deriving DecidableEq

/-- The assembler state at the start of a turn: empty segments array, empty
map, and the placeholder assistant message with empty content. -/
def initAsm : AsmState := ⟨[], [], [], "", []⟩

/-- In-place update of the object at index n of the heap (a no-op when n is
out of range, which never happens for indices recorded by the map). -/
def listModify {α : Type} : List α → Nat → (α → α) → List α
  | [], _, _ => []
  | x :: xs, 0, f => f x :: xs
  | x :: xs, n + 1, f => x :: listModify xs n f

/-- Map.get on the tool-call map. -/
def mapGet : List (String × Nat) → String → Option Nat
  | [], _ => none
  | p :: rest, key => if p.1 = key then some p.2 else mapGet rest key

/-- Map.set on the tool-call map: replace in place when the key exists
(JavaScript Map keeps the original insertion position), append otherwise. -/
def mapSet (m : List (String × Nat)) (key : String) (v : Nat) : List (String × Nat) :=
  if m.any (fun p => p.1 = key) then
    m.map (fun p => if p.1 = key then (key, v) else p)
  else
    m ++ [(key, v)]

/-- The body of the completion sweep on one call (ChatInterface.tsx lines
137-141): a call still streaming or executing becomes complete. -/
def completePending (tc : ToolCall) : ToolCall :=
  if tc.status = ToolStatus.streaming ∨ tc.status = ToolStatus.executing then
    { tc with status := ToolStatus.complete }
  else
    tc

/-- The body of the executing sweep on one call (ChatInterface.tsx lines
184-186): a streaming call becomes executing. -/
def toExecuting (tc : ToolCall) : ToolCall :=
  if tc.status = ToolStatus.streaming then
    { tc with status := ToolStatus.executing }
  else
    tc

/-- A for-of loop over toolCallMap.values() applying an in-place update f
to each ToolCall object the map references. -/
def foldModify (f : ToolCall → ToolCall) (m : List (String × Nat))
    (calls : List ToolCall) : List ToolCall :=
  m.foldl (fun cs p => listModify cs p.2 f) calls

/-- The content of a text segment, none for a tool segment. -/
def MessageSegment.textContent : MessageSegment → Option String
  | .text c => some c
  | .tool _ => none

/-- updateMessage (ChatInterface.tsx lines 107-123): recompute the flat
content of the assistant message as the join of the contents of the text
segments, and capture the current segments array into the message. -/
def updateMessage (s : AsmState) : AsmState :=
  let content := String.join (s.segments.filterMap MessageSegment.textContent)
  { s with msgContent := content, msgSegments := s.segments }

/-- One step of the segment assembler: the switch over event.type in the
streaming callback of sendMessage (ChatInterface.tsx lines 131-191). -/
def asmStep (s : AsmState) : StreamEvent → AsmState
  | .text c =>
    let s1 :=
      match s.segments.getLast? with
      | some (.tool _) => { s with calls := foldModify completePending s.toolCallMap s.calls }
      | _ => s
    let segs :=
      match s1.segments.getLast? with
      | some (.text t) => s1.segments.dropLast ++ [MessageSegment.text (t ++ c)]
      | _ => s1.segments ++ [MessageSegment.text c]
    updateMessage { s1 with segments := segs }
  | .tool_use_start id name =>
    let r := s.calls.length
    updateMessage
      { s with
        calls := s.calls ++ [⟨id, name, "", none, ToolStatus.streaming⟩],
        toolCallMap := mapSet s.toolCallMap id r,
        segments := s.segments ++ [MessageSegment.tool r] }
  | .tool_use_delta id inp =>
    match mapGet s.toolCallMap id with
    | some r =>
      updateMessage { s with calls := listModify s.calls r (fun tc => { tc with input := tc.input ++ inp }) }
    | none => updateMessage s
  | .tool_result id res =>
    match mapGet s.toolCallMap id with
    | some r =>
      updateMessage
        { s with calls := listModify s.calls r (fun tc => { tc with result := some res, status := ToolStatus.complete }) }
    | none => updateMessage s
  | .message role =>
    if role = "assistant" then
      updateMessage { s with calls := foldModify toExecuting s.toolCallMap s.calls }
    else
      s
  | .result _ => s
  | .lifecycle _ => s

/-- Processing a whole canonical event sequence from the fresh per-turn
state. -/
def processEvents (events : List StreamEvent) : AsmState :=
  events.foldl asmStep initAsm

/-- The status of the ToolCall the map currently associates with id. -/
def toolStatus (s : AsmState) (id : String) : Option ToolStatus :=
  match mapGet s.toolCallMap id with
  | some r => (s.calls.get? r).map ToolCall.status
  | none => none

/-- Concatenation of the contents of the text segments of a segment list,
in order. -/
def segsText : List MessageSegment → String
  | [] => ""
  | MessageSegment.text c :: rest => c ++ segsText rest
  | MessageSegment.tool _ :: rest => segsText rest

/-- Concatenation of the contents of the text events of an event sequence,
in arrival order. -/
def eventsText : List StreamEvent → String
  | [] => ""
  | StreamEvent.text c :: rest => c ++ eventsText rest
  | _ :: rest => eventsText rest

/-- Rank of a status along the lifecycle order streaming, executing,
complete. -/
def statusRank : ToolStatus → Nat
  | .streaming => 0
  | .executing => 1
  | .complete => 2

lemma listModify_get? {α : Type} (l : List α) (n : Nat) (f : α → α) (i : Nat) :
    (listModify l n f).get? i = if i = n then (l.get? i).map f else l.get? i := by
  induction l generalizing n i with
  | nil => simp [listModify]
  | cons x xs ih =>
    cases n with
    | zero =>
      cases i with
      | zero => simp [listModify]
      | succ j => simp [listModify]
    | succ m =>
      cases i with
      | zero => simp [listModify]
      | succ j =>
        simp only [listModify, List.get?]
        rw [ih]
        by_cases h : j = m
        · simp [h]
        · simp [h, fun hc => h (Nat.succ_injective hc)]

lemma mapGet_append_single_notmem (m : List (String × Nat)) (key : String) (v : Nat)
    (h : ∀ p ∈ m, p.1 ≠ key) : mapGet (m ++ [(key, v)]) key = some v := by
  induction m with
  | nil => simp [mapGet]
  | cons p rest ih =>
    rw [List.cons_append]
    simp only [mapGet]
    have hp : ¬ p.1 = key := h p (List.mem_cons_self p rest)
    simp only [hp, if_false]
    exact ih (fun q hq => h q (List.mem_cons_of_mem p hq))

lemma mapGet_mapSet_same (m : List (String × Nat)) (key : String) (v : Nat) :
    mapGet (mapSet m key v) key = some v := by
  unfold mapSet
  by_cases hmem : m.any (fun p => p.1 = key)
  · rw [if_pos hmem]
    induction m with
    | nil => simp at hmem
    | cons p rest ih =>
      rw [List.map_cons]
      by_cases hp : p.1 = key
      · rw [if_pos hp]
        simp [mapGet]
      · rw [if_neg hp]
        simp only [mapGet, hp, if_false]
        apply ih
        simp only [List.any_cons, Bool.or_eq_true] at hmem
        rcases hmem with h | h
        · exact absurd (of_decide_eq_true h) hp
        · exact h
  · rw [if_neg hmem]
    apply mapGet_append_single_notmem
    intro p hp hc
    apply hmem
    rw [List.any_eq_true]
    exact ⟨p, hp, by simpa using hc⟩

lemma mapGet_mapSet_other (m : List (String × Nat)) (key other : String) (v : Nat)
    (h : other ≠ key) : mapGet (mapSet m key v) other = mapGet m other := by
  have hko : ¬ key = other := fun hc => h hc.symm
  unfold mapSet
  by_cases hmem : m.any (fun p => p.1 = key)
  · rw [if_pos hmem]
    clear hmem
    induction m with
    | nil => simp
    | cons p rest ih =>
      rw [List.map_cons]
      by_cases hp : p.1 = key
      · rw [if_pos hp]
        simp only [mapGet, hko, if_false]
        have hpo : ¬ p.1 = other := by rw [hp]; exact hko
        rw [if_neg hpo]
        exact ih
      · rw [if_neg hp]
        simp only [mapGet]
        by_cases hpo : p.1 = other
        · simp [hpo]
        · simp only [hpo, if_false]
          exact ih
  · rw [if_neg hmem]
    clear hmem
    induction m with
    | nil => simp [mapGet, hko]
    | cons p rest ih =>
      rw [List.cons_append]
      simp only [mapGet]
      by_cases hpo : p.1 = other
      · simp [hpo]
      · simp only [hpo, if_false]
        exact ih

lemma statusRank_le_two (s : ToolStatus) : statusRank s ≤ 2 := by
  rcases s with _ | _ | _ <;> simp [statusRank]

lemma completePending_status (tc : ToolCall) :
    (completePending tc).status = ToolStatus.complete := by
  unfold completePending
  split
  · rfl
  · rename_i hn
    rcases h : tc.status with _ | _ | _
    · exact absurd (Or.inl h) hn
    · exact absurd (Or.inr h) hn
    · rfl

lemma statusRank_completePending (tc : ToolCall) :
    statusRank tc.status ≤ statusRank (completePending tc).status := by
  rw [completePending_status]
  exact statusRank_le_two _

lemma statusRank_toExecuting (tc : ToolCall) :
    statusRank tc.status ≤ statusRank (toExecuting tc).status := by
  unfold toExecuting
  split
  · rename_i h
    rw [h]
    simp [statusRank]
  · exact le_refl _

lemma complete_of_statusRank_le {b : ToolStatus}
    (h : statusRank ToolStatus.complete ≤ statusRank b) : b = ToolStatus.complete := by
  rcases b with _ | _ | _ <;> simp [statusRank] at h ⊢

lemma foldModify_cons (f : ToolCall → ToolCall) (p : String × Nat)
    (m : List (String × Nat)) (cs : List ToolCall) :
    foldModify f (p :: m) cs = foldModify f m (listModify cs p.2 f) := rfl

lemma foldModify_rel {f : ToolCall → ToolCall} {R : ToolCall → ToolCall → Prop}
    (hR : ∀ tc, R tc (f tc)) (hrefl : ∀ tc, R tc tc)
    (htrans : ∀ a b c, R a b → R b c → R a c) :
    ∀ (m : List (String × Nat)) (cs : List ToolCall) (r : Nat) (tc : ToolCall),
      cs.get? r = some tc →
      ∃ tc2, (foldModify f m cs).get? r = some tc2 ∧ R tc tc2 := by
  intro m
  induction m with
  | nil => exact fun cs r tc h => ⟨tc, h, hrefl tc⟩
  | cons p rest ih =>
    intro cs r tc h
    rw [foldModify_cons]
    by_cases hr : r = p.2
    · have h1 : (listModify cs p.2 f).get? r = some (f tc) := by
        rw [listModify_get?, if_pos hr, h]; rfl
      obtain ⟨tc2, h2, h3⟩ := ih _ r (f tc) h1
      exact ⟨tc2, h2, htrans _ _ _ (hR tc) h3⟩
    · have h1 : (listModify cs p.2 f).get? r = some tc := by
        rw [listModify_get?, if_neg hr, h]
      exact ih _ r tc h1

lemma foldModify_complete_preserved :
    ∀ (m : List (String × Nat)) (cs : List ToolCall) (r : Nat) (tc : ToolCall),
      cs.get? r = some tc → tc.status = ToolStatus.complete →
      ∃ tc2, (foldModify completePending m cs).get? r = some tc2 ∧
        tc2.status = ToolStatus.complete := by
  intro m cs r tc h hc
  obtain ⟨tc2, h2, h3⟩ :=
    foldModify_rel (R := fun a b => statusRank a.status ≤ statusRank b.status)
      statusRank_completePending (fun tc => le_refl _)
      (fun a b c hab hbc => le_trans hab hbc) m cs r tc h
  refine ⟨tc2, h2, ?_⟩
  rw [hc] at h3
  exact complete_of_statusRank_le h3

lemma foldModify_complete_mapped :
    ∀ (m : List (String × Nat)) (cs : List ToolCall) (key : String) (r : Nat)
      (tc : ToolCall),
      mapGet m key = some r → cs.get? r = some tc →
      ∃ tc2, (foldModify completePending m cs).get? r = some tc2 ∧
        tc2.status = ToolStatus.complete := by
  intro m
  induction m with
  | nil => intro cs key r tc h; simp [mapGet] at h
  | cons p rest ih =>
    intro cs key r tc hmap h
    rw [foldModify_cons]
    simp only [mapGet] at hmap
    by_cases hp : p.1 = key
    · rw [if_pos hp] at hmap
      have hr : r = p.2 := by injection hmap with h1; exact h1.symm
      have h1 : (listModify cs p.2 completePending).get? r = some (completePending tc) := by
        rw [listModify_get?, if_pos hr, h]; rfl
      exact foldModify_complete_preserved rest _ r (completePending tc) h1
        (completePending_status tc)
    · rw [if_neg hp] at hmap
      by_cases hr : r = p.2
      · have h1 : (listModify cs p.2 completePending).get? r = some (completePending tc) := by
          rw [listModify_get?, if_pos hr, h]; rfl
        exact ih _ key r (completePending tc) hmap h1
      · have h1 : (listModify cs p.2 completePending).get? r = some tc := by
          rw [listModify_get?, if_neg hr, h]
        exact ih _ key r tc hmap h1

lemma segsText_append (l1 l2 : List MessageSegment) :
    segsText (l1 ++ l2) = segsText l1 ++ segsText l2 := by
  induction l1 with
  | nil => simp [segsText]
  | cons s rest ih =>
    rcases s with c | r
    · show c ++ segsText (rest ++ l2) = (c ++ segsText rest) ++ segsText l2
      rw [ih, String.append_assoc]
    · show segsText (rest ++ l2) = segsText rest ++ segsText l2
      exact ih

lemma String.foldl_append_init (l : List String) :
    ∀ (s : String), l.foldl (fun a b => a ++ b) s = s ++ l.foldl (fun a b => a ++ b) "" := by
  induction l with
  | nil => intro s; simp [List.foldl]
  | cons c rest ih =>
    intro s
    simp only [List.foldl]
    rw [ih (s ++ c), ih ("" ++ c)]
    simp [String.append_assoc]

lemma String.join_cons (c : String) (l : List String) :
    String.join (c :: l) = c ++ String.join l := by
  simp only [String.join, List.foldl]
  rw [String.foldl_append_init]
  simp

lemma join_filterMap_eq_segsText (l : List MessageSegment) :
    String.join (l.filterMap MessageSegment.textContent) = segsText l := by
  induction l with
  | nil => simp [segsText, String.join]
  | cons s rest ih =>
    rcases s with c | r
    · simp only [List.filterMap_cons, MessageSegment.textContent, segsText]
      rw [String.join_cons, ih]
    · simp only [List.filterMap_cons, MessageSegment.textContent, segsText]
      exact ih

lemma segsText_dropLast_text (l : List MessageSegment) (t c : String)
    (h : l.getLast? = some (MessageSegment.text t)) :
    segsText (l.dropLast ++ [MessageSegment.text (t ++ c)]) = segsText l ++ c := by
  induction l with
  | nil => simp at h
  | cons s rest ih =>
    cases rest with
    | nil =>
      simp only [List.getLast?_singleton] at h
      injection h with h1
      rw [h1]
      simp [segsText, String.append_assoc]
    | cons s2 rest2 =>
      have h2 : (s2 :: rest2).getLast? = some (MessageSegment.text t) := by
        rw [← h]
        rfl
      have ih2 := ih h2
      rcases s with d | r
      · show d ++ segsText ((s2 :: rest2).dropLast ++ [MessageSegment.text (t ++ c)]) =
          (d ++ segsText (s2 :: rest2)) ++ c
        rw [ih2, String.append_assoc]
      · show segsText ((s2 :: rest2).dropLast ++ [MessageSegment.text (t ++ c)]) =
          segsText (s2 :: rest2) ++ c
        exact ih2

/-- The text contribution of one canonical event. -/
def eventText : StreamEvent → String
  | .text c => c
  | _ => ""

lemma eventsText_cons (e : StreamEvent) (rest : List StreamEvent) :
    eventsText (e :: rest) = eventText e ++ eventsText rest := by
  rcases e <;> simp [eventsText, eventText]

lemma updateMessage_segments (s : AsmState) :
    (updateMessage s).segments = s.segments := rfl

lemma updateMessage_calls (s : AsmState) :
    (updateMessage s).calls = s.calls := rfl

lemma updateMessage_toolCallMap (s : AsmState) :
    (updateMessage s).toolCallMap = s.toolCallMap := rfl

lemma asmStep_text_segments (s : AsmState) (c : String) :
    (asmStep s (StreamEvent.text c)).segments =
      match s.segments.getLast? with
      | some (MessageSegment.text t) => s.segments.dropLast ++ [MessageSegment.text (t ++ c)]
      | _ => s.segments ++ [MessageSegment.text c] := by
  rcases h : s.segments.getLast? with _ | seg
  · simp [asmStep, updateMessage, h]
  · rcases seg with t | r
    · simp [asmStep, updateMessage, h]
    · simp [asmStep, updateMessage, h]

lemma asmStep_segsText (s : AsmState) (e : StreamEvent) :
    segsText (asmStep s e).segments = segsText s.segments ++ eventText e := by
  cases e with
  | text c =>
    rw [asmStep_text_segments]
    rcases h : s.segments.getLast? with _ | seg
    · simp [segsText_append, segsText, eventText]
    · rcases seg with t | r
      · simp only [eventText]
        exact segsText_dropLast_text s.segments t c h
      · simp [segsText_append, segsText, eventText]
  | tool_use_start id name =>
    simp [asmStep, updateMessage, segsText_append, segsText, eventText]
  | tool_use_delta id inp =>
    simp only [asmStep]
    rcases h : mapGet s.toolCallMap id with _ | r
    · simp [updateMessage, eventText]
    · simp [updateMessage, eventText]
  | tool_result id res =>
    simp only [asmStep]
    rcases h : mapGet s.toolCallMap id with _ | r
    · simp [updateMessage, eventText]
    · simp [updateMessage, eventText]
  | message role =>
    simp only [asmStep]
    by_cases h : role = "assistant"
    · simp [h, updateMessage, eventText]
    · simp [h, eventText]
  | result sr => simp [asmStep, eventText]
  | lifecycle ev => simp [asmStep, eventText]

lemma foldl_segsText (evs : List StreamEvent) :
    ∀ s : AsmState,
      segsText ((evs.foldl asmStep s)).segments = segsText s.segments ++ eventsText evs := by
  induction evs with
  | nil => intro s; simp [eventsText]
  | cons e rest ih =>
    intro s
    rw [List.foldl_cons, ih (asmStep s e), asmStep_segsText, eventsText_cons,
      String.append_assoc]

/-- C5: Text round-trip — for every canonical event sequence processed by
the segment assembler, the concatenation of every text event's content in
arrival order equals the concatenation, in segment order, of the content
of all text segments of the assembled segment list: no text is lost,
reordered, or duplicated. -/
theorem text_round_trip (events : List StreamEvent) :
    segsText (processEvents events).segments = eventsText events := by
  unfold processEvents
  rw [foldl_segsText]
  simp [initAsm, segsText]

lemma updateMessage_msgInv (s : AsmState) :
    (updateMessage s).msgContent = segsText (updateMessage s).msgSegments := by
  simp [updateMessage, join_filterMap_eq_segsText]

lemma asmStep_msgInv (s : AsmState) (e : StreamEvent)
    (h : s.msgContent = segsText s.msgSegments) :
    (asmStep s e).msgContent = segsText (asmStep s e).msgSegments := by
  cases e with
  | text c =>
    rcases hl : s.segments.getLast? with _ | seg
    · simp only [asmStep, hl]
      exact updateMessage_msgInv _
    · rcases seg with t | r
      · simp only [asmStep, hl]
        exact updateMessage_msgInv _
      · simp only [asmStep, hl]
        exact updateMessage_msgInv _
  | tool_use_start id name =>
    simp only [asmStep]
    exact updateMessage_msgInv _
  | tool_use_delta id inp =>
    simp only [asmStep]
    rcases hm : mapGet s.toolCallMap id with _ | r
    · exact updateMessage_msgInv _
    · exact updateMessage_msgInv _
  | tool_result id res =>
    simp only [asmStep]
    rcases hm : mapGet s.toolCallMap id with _ | r
    · exact updateMessage_msgInv _
    · exact updateMessage_msgInv _
  | message role =>
    simp only [asmStep]
    by_cases hr : role = "assistant"
    · rw [if_pos hr]
      exact updateMessage_msgInv _
    · rw [if_neg hr]
      exact h
  | result sr => exact h
  | lifecycle ev => exact h

/-- C10: Implicit content/segments coherence — after the segment assembler
processes any canonical event sequence, the assistant message's flat
content field equals the in-order concatenation of the content of exactly
the text segments of its captured segment list (tool segments contribute
nothing to content). -/
theorem content_segments_coherence (events : List StreamEvent) :
    (processEvents events).msgContent = segsText (processEvents events).msgSegments := by
  unfold processEvents
  induction events using List.reverseRecOn with
  | nil => simp [initAsm, segsText]
  | append_singleton rest e ih =>
    rw [List.foldl_append, List.foldl_cons, List.foldl_nil]
    exact asmStep_msgInv _ e ih

lemma asmStep_text_calls (s : AsmState) (c : String) :
    (asmStep s (StreamEvent.text c)).calls =
      match s.segments.getLast? with
      | some (MessageSegment.tool _) => foldModify completePending s.toolCallMap s.calls
      | _ => s.calls := by
  rcases h : s.segments.getLast? with _ | seg
  · simp [asmStep, updateMessage, h]
  · rcases seg with t | r
    · simp [asmStep, updateMessage, h]
    · simp [asmStep, updateMessage, h]

lemma statusRank_trans (a b c : ToolCall) :
    statusRank a.status ≤ statusRank b.status →
    statusRank b.status ≤ statusRank c.status →
    statusRank a.status ≤ statusRank c.status := fun h1 h2 => le_trans h1 h2

/-- C6: Status monotonicity — for every assembler state, every processed
canonical event, and every ToolCall object in the heap of calls, the
status field only ever moves forward along
streaming, executing, complete: no event moves a status from complete
back to streaming or executing, nor from executing back to streaming. -/
theorem status_monotone (s : AsmState) (e : StreamEvent) (r : Nat) (tc tc2 : ToolCall)
    (h1 : s.calls.get? r = some tc) (h2 : (asmStep s e).calls.get? r = some tc2) :
    statusRank tc.status ≤ statusRank tc2.status := by
  cases e with
  | text c =>
    rw [asmStep_text_calls] at h2
    rcases hl : s.segments.getLast? with _ | seg
    · rw [hl] at h2
      rw [h1] at h2
      injection h2 with h3
      rw [h3]
    · rcases seg with t | k
      · rw [hl] at h2
        rw [h1] at h2
        injection h2 with h3
        rw [h3]
      · rw [hl] at h2
        obtain ⟨tc3, h3, h4⟩ :=
          foldModify_rel (R := fun a b => statusRank a.status ≤ statusRank b.status)
            statusRank_completePending (fun tc => le_refl _) statusRank_trans
            s.toolCallMap s.calls r tc h1
        rw [h3] at h2
        injection h2 with h5
        rw [← h5]
        exact h4
  | tool_use_start id name =>
    simp only [asmStep, updateMessage_calls] at h2
    have hlt : r < s.calls.length := (List.get?_eq_some.mp h1).1
    rw [List.get?_append hlt, h1] at h2
    injection h2 with h3
    rw [h3]
  | tool_use_delta id inp =>
    simp only [asmStep] at h2
    rcases hm : mapGet s.toolCallMap id with _ | r0
    · rw [hm] at h2
      simp only [updateMessage_calls] at h2
      rw [h1] at h2
      injection h2 with h3
      rw [h3]
    · rw [hm] at h2
      simp only [updateMessage_calls] at h2
      rw [listModify_get?] at h2
      by_cases hr : r = r0
      · rw [if_pos hr, h1] at h2
        injection h2 with h3
        rw [← h3]
      · rw [if_neg hr, h1] at h2
        injection h2 with h3
        rw [h3]
  | tool_result id res =>
    simp only [asmStep] at h2
    rcases hm : mapGet s.toolCallMap id with _ | r0
    · rw [hm] at h2
      simp only [updateMessage_calls] at h2
      rw [h1] at h2
      injection h2 with h3
      rw [h3]
    · rw [hm] at h2
      simp only [updateMessage_calls] at h2
      rw [listModify_get?] at h2
      by_cases hr : r = r0
      · rw [if_pos hr, h1] at h2
        injection h2 with h3
        rw [← h3]
        exact statusRank_le_two _
      · rw [if_neg hr, h1] at h2
        injection h2 with h3
        rw [h3]
  | message role =>
    simp only [asmStep] at h2
    by_cases hr : role = "assistant"
    · rw [if_pos hr] at h2
      simp only [updateMessage_calls] at h2
      obtain ⟨tc3, h3, h4⟩ :=
        foldModify_rel (R := fun a b => statusRank a.status ≤ statusRank b.status)
          statusRank_toExecuting (fun tc => le_refl _) statusRank_trans
          s.toolCallMap s.calls r tc h1
      rw [h3] at h2
      injection h2 with h5
      rw [← h5]
      exact h4
    · rw [if_neg hr] at h2
      rw [h1] at h2
      injection h2 with h3
      rw [h3]
  | result sr =>
    simp only [asmStep] at h2
    rw [h1] at h2
    injection h2 with h3
    rw [h3]
  | lifecycle ev =>
    simp only [asmStep] at h2
    rw [h1] at h2
    injection h2 with h3
    rw [h3]

/-- C7: Dangling-correlation drop — when the segment assembler receives a
tool_use_delta or a tool_result event whose toolUseId is not in its
tool-call map, the event is dropped: the segment list, the tool-call map
and the heap of ToolCall objects are all unchanged (and, the step being a
total function, no exception is raised). -/
theorem dangling_correlation_drop (s : AsmState) (id inp res : String)
    (h : mapGet s.toolCallMap id = none) :
    ((asmStep s (StreamEvent.tool_use_delta id inp)).segments = s.segments ∧
     (asmStep s (StreamEvent.tool_use_delta id inp)).toolCallMap = s.toolCallMap ∧
     (asmStep s (StreamEvent.tool_use_delta id inp)).calls = s.calls) ∧
    ((asmStep s (StreamEvent.tool_result id res)).segments = s.segments ∧
     (asmStep s (StreamEvent.tool_result id res)).toolCallMap = s.toolCallMap ∧
     (asmStep s (StreamEvent.tool_result id res)).calls = s.calls) := by
  constructor
  · simp [asmStep, h, updateMessage]
  · simp [asmStep, h, updateMessage]

/-- Witness for dangling_correlation_drop: a turn whose only prior event
started tool t1, hit with a delta and a result for the unseen id t2. -/
theorem dangling_correlation_drop_witness :
    mapGet (processEvents [StreamEvent.tool_use_start "t1" "calc"]).toolCallMap "t2" = none ∧
    ((asmStep (processEvents [StreamEvent.tool_use_start "t1" "calc"])
        (StreamEvent.tool_use_delta "t2" "x")).segments =
      (processEvents [StreamEvent.tool_use_start "t1" "calc"]).segments ∧
     (asmStep (processEvents [StreamEvent.tool_use_start "t1" "calc"])
        (StreamEvent.tool_use_delta "t2" "x")).toolCallMap =
      (processEvents [StreamEvent.tool_use_start "t1" "calc"]).toolCallMap ∧
     (asmStep (processEvents [StreamEvent.tool_use_start "t1" "calc"])
        (StreamEvent.tool_use_delta "t2" "x")).calls =
      (processEvents [StreamEvent.tool_use_start "t1" "calc"]).calls) := by
  refine ⟨by decide, ?_⟩
  exact (dangling_correlation_drop (processEvents [StreamEvent.tool_use_start "t1" "calc"])
    "t2" "x" "r" (by decide)).1

/-- C3 counterexample: a second tool_use_start for an id already in the
tool-call map is not a no-op. After start t1, delta t1 abc, a duplicate
start for t1 grows the segment list from one to two segments and rebinds
the map entry for t1 to a fresh ToolCall whose accumulated input is empty
and whose status is streaming, instead of leaving the original entry
(input abc) and the segment list unchanged. -/
theorem duplicate_start_not_noop :
    (asmStep (processEvents [StreamEvent.tool_use_start "t1" "calc",
        StreamEvent.tool_use_delta "t1" "abc"])
      (StreamEvent.tool_use_start "t1" "calc")).segments ≠
      (processEvents [StreamEvent.tool_use_start "t1" "calc",
        StreamEvent.tool_use_delta "t1" "abc"]).segments ∧
    mapGet (processEvents [StreamEvent.tool_use_start "t1" "calc",
        StreamEvent.tool_use_delta "t1" "abc"]).toolCallMap "t1" = some 0 ∧
    (processEvents [StreamEvent.tool_use_start "t1" "calc",
        StreamEvent.tool_use_delta "t1" "abc"]).calls.get? 0 =
      some ⟨"t1", "calc", "abc", none, ToolStatus.streaming⟩ ∧
    mapGet (asmStep (processEvents [StreamEvent.tool_use_start "t1" "calc",
        StreamEvent.tool_use_delta "t1" "abc"])
      (StreamEvent.tool_use_start "t1" "calc")).toolCallMap "t1" = some 1 ∧
    (asmStep (processEvents [StreamEvent.tool_use_start "t1" "calc",
        StreamEvent.tool_use_delta "t1" "abc"])
      (StreamEvent.tool_use_start "t1" "calc")).calls.get? 1 =
      some ⟨"t1", "calc", "", none, ToolStatus.streaming⟩ := by
  refine ⟨by decide, by decide, by decide, by decide, by decide⟩

/-- C3 amended: a second tool_use_start carrying a toolUseId already
present in the tool-call map is processed like any other start — it
rebinds the map entry to a fresh ToolCall (empty input, streaming) stored
at a new heap position, appends a new tool segment referencing it, and
leaves the previously referenced ToolCall object itself unchanged (the
old tool segment keeps displaying the stale object). -/
theorem duplicate_start_overwrites (s : AsmState) (id name : String) (r : Nat)
    (hmem : mapGet s.toolCallMap id = some r) (hr : r < s.calls.length) :
    mapGet (asmStep s (StreamEvent.tool_use_start id name)).toolCallMap id =
      some s.calls.length ∧
    (asmStep s (StreamEvent.tool_use_start id name)).calls.get? s.calls.length =
      some ⟨id, name, "", none, ToolStatus.streaming⟩ ∧
    (asmStep s (StreamEvent.tool_use_start id name)).segments =
      s.segments ++ [MessageSegment.tool s.calls.length] ∧
    (asmStep s (StreamEvent.tool_use_start id name)).calls.get? r = s.calls.get? r := by
  refine ⟨?_, ?_, ?_, ?_⟩
  · simp only [asmStep, updateMessage_toolCallMap]
    exact mapGet_mapSet_same _ _ _
  · simp only [asmStep, updateMessage_calls]
    exact List.get?_concat_length _ _
  · simp [asmStep, updateMessage]
  · simp only [asmStep, updateMessage_calls]
    exact List.get?_append hr

/-- Witness for duplicate_start_overwrites at a concrete duplicate start. -/
theorem duplicate_start_overwrites_witness :
    mapGet (processEvents [StreamEvent.tool_use_start "t1" "calc"]).toolCallMap "t1" =
      some 0 ∧
    0 < (processEvents [StreamEvent.tool_use_start "t1" "calc"]).calls.length ∧
    (mapGet (asmStep (processEvents [StreamEvent.tool_use_start "t1" "calc"])
        (StreamEvent.tool_use_start "t1" "calc")).toolCallMap "t1" =
      some (processEvents [StreamEvent.tool_use_start "t1" "calc"]).calls.length ∧
    (asmStep (processEvents [StreamEvent.tool_use_start "t1" "calc"])
        (StreamEvent.tool_use_start "t1" "calc")).calls.get?
        (processEvents [StreamEvent.tool_use_start "t1" "calc"]).calls.length =
      some ⟨"t1", "calc", "", none, ToolStatus.streaming⟩ ∧
    (asmStep (processEvents [StreamEvent.tool_use_start "t1" "calc"])
        (StreamEvent.tool_use_start "t1" "calc")).segments =
      (processEvents [StreamEvent.tool_use_start "t1" "calc"]).segments ++
        [MessageSegment.tool
          (processEvents [StreamEvent.tool_use_start "t1" "calc"]).calls.length] ∧
    (asmStep (processEvents [StreamEvent.tool_use_start "t1" "calc"])
        (StreamEvent.tool_use_start "t1" "calc")).calls.get? 0 =
      (processEvents [StreamEvent.tool_use_start "t1" "calc"]).calls.get? 0) :=
  ⟨by decide, by decide,
    duplicate_start_overwrites (processEvents [StreamEvent.tool_use_start "t1" "calc"])
      "t1" "calc" 0 (by decide) (by decide)⟩

lemma asmStep_text_toolCallMap (s : AsmState) (c : String) :
    (asmStep s (StreamEvent.text c)).toolCallMap = s.toolCallMap := by
  rcases h : s.segments.getLast? with _ | seg
  · simp [asmStep, updateMessage, h]
  · rcases seg with t | r
    · simp [asmStep, updateMessage, h]
    · simp [asmStep, updateMessage, h]

lemma asmStep_delta_segments (s : AsmState) (id inp : String) :
    (asmStep s (StreamEvent.tool_use_delta id inp)).segments = s.segments := by
  rcases h : mapGet s.toolCallMap id with _ | r <;> simp [asmStep, h, updateMessage]

lemma asmStep_delta_toolCallMap (s : AsmState) (id inp : String) :
    (asmStep s (StreamEvent.tool_use_delta id inp)).toolCallMap = s.toolCallMap := by
  rcases h : mapGet s.toolCallMap id with _ | r <;> simp [asmStep, h, updateMessage]

lemma asmStep_delta_calls (s : AsmState) (id inp : String) :
    (asmStep s (StreamEvent.tool_use_delta id inp)).calls =
      match mapGet s.toolCallMap id with
      | some r =>
        listModify s.calls r (fun tc => { tc with input := tc.input ++ inp })
      | none => s.calls := by
  rcases h : mapGet s.toolCallMap id with _ | r <;> simp [asmStep, h, updateMessage]

lemma asmStep_result_segments (s : AsmState) (id res : String) :
    (asmStep s (StreamEvent.tool_result id res)).segments = s.segments := by
  rcases h : mapGet s.toolCallMap id with _ | r <;> simp [asmStep, h, updateMessage]

lemma asmStep_result_toolCallMap (s : AsmState) (id res : String) :
    (asmStep s (StreamEvent.tool_result id res)).toolCallMap = s.toolCallMap := by
  rcases h : mapGet s.toolCallMap id with _ | r <;> simp [asmStep, h, updateMessage]

lemma asmStep_result_calls (s : AsmState) (id res : String) :
    (asmStep s (StreamEvent.tool_result id res)).calls =
      match mapGet s.toolCallMap id with
      | some r =>
        listModify s.calls r
          (fun tc => { tc with result := some res, status := ToolStatus.complete })
      | none => s.calls := by
  rcases h : mapGet s.toolCallMap id with _ | r <;> simp [asmStep, h, updateMessage]

lemma asmStep_message_segments (s : AsmState) (role : String) :
    (asmStep s (StreamEvent.message role)).segments = s.segments := by
  by_cases h : role = "assistant" <;> simp [asmStep, h, updateMessage]

lemma asmStep_message_toolCallMap (s : AsmState) (role : String) :
    (asmStep s (StreamEvent.message role)).toolCallMap = s.toolCallMap := by
  by_cases h : role = "assistant" <;> simp [asmStep, h, updateMessage]

lemma asmStep_message_calls (s : AsmState) (role : String) :
    (asmStep s (StreamEvent.message role)).calls =
      if role = "assistant" then foldModify toExecuting s.toolCallMap s.calls
      else s.calls := by
  by_cases h : role = "assistant" <;> simp [asmStep, h, updateMessage]

/-- A tool call with id is tracked by the assembler: the map binds id to a
live heap cell, and either the last segment is a tool segment (so the
next text event will run the completion sweep) or the call is already
complete. This is the inductive invariant behind implicit completion. -/
def trackedTool (s : AsmState) (id : String) : Prop :=
  ∃ r tc, mapGet s.toolCallMap id = some r ∧ s.calls.get? r = some tc ∧
    ((∃ k, s.segments.getLast? = some (MessageSegment.tool k)) ∨
      tc.status = ToolStatus.complete)

lemma trackedTool_after_start (s : AsmState) (id name : String) :
    trackedTool (asmStep s (StreamEvent.tool_use_start id name)) id := by
  refine ⟨s.calls.length, ⟨id, name, "", none, ToolStatus.streaming⟩, ?_, ?_, ?_⟩
  · simp only [asmStep, updateMessage_toolCallMap]
    exact mapGet_mapSet_same _ _ _
  · simp only [asmStep, updateMessage_calls]
    exact List.get?_concat_length _ _
  · refine Or.inl ⟨s.calls.length, ?_⟩
    simp only [asmStep, updateMessage_segments]
    exact List.getLast?_concat _

lemma trackedTool_step (s : AsmState) (id : String) (e : StreamEvent)
    (h : trackedTool s id) : trackedTool (asmStep s e) id := by
  obtain ⟨r, tc, hmap, hcell, hdisj⟩ := h
  cases e with
  | text c =>
    rcases hl : s.segments.getLast? with _ | seg
    · have hcomp : tc.status = ToolStatus.complete := by
        rcases hdisj with ⟨k, hk⟩ | hc
        · rw [hl] at hk; exact absurd hk (by simp)
        · exact hc
      refine ⟨r, tc, ?_, ?_, Or.inr hcomp⟩
      · rw [asmStep_text_toolCallMap]; exact hmap
      · rw [asmStep_text_calls, hl]; exact hcell
    · rcases seg with t | k
      · have hcomp : tc.status = ToolStatus.complete := by
          rcases hdisj with ⟨k, hk⟩ | hc
          · rw [hl] at hk; exact absurd hk (by simp)
          · exact hc
        refine ⟨r, tc, ?_, ?_, Or.inr hcomp⟩
        · rw [asmStep_text_toolCallMap]; exact hmap
        · rw [asmStep_text_calls, hl]; exact hcell
      · obtain ⟨tc2, h2, h3⟩ :=
          foldModify_complete_mapped s.toolCallMap s.calls id r tc hmap hcell
        refine ⟨r, tc2, ?_, ?_, Or.inr h3⟩
        · rw [asmStep_text_toolCallMap]; exact hmap
        · rw [asmStep_text_calls, hl]; exact h2
  | tool_use_start id2 name2 =>
    by_cases hid : id2 = id
    · subst hid
      exact trackedTool_after_start s id2 name2
    · refine ⟨r, tc, ?_, ?_, ?_⟩
      · simp only [asmStep, updateMessage_toolCallMap]
        rw [mapGet_mapSet_other _ _ _ _ (fun hc => hid hc.symm)]
        exact hmap
      · simp only [asmStep, updateMessage_calls]
        have hlt : r < s.calls.length := (List.get?_eq_some.mp hcell).1
        rw [List.get?_append hlt]
        exact hcell
      · refine Or.inl ⟨s.calls.length, ?_⟩
        simp only [asmStep, updateMessage_segments]
        exact List.getLast?_concat _
  | tool_use_delta id2 inp =>
    rcases hm : mapGet s.toolCallMap id2 with _ | r0
    · refine ⟨r, tc, ?_, ?_, ?_⟩
      · rw [asmStep_delta_toolCallMap]; exact hmap
      · rw [asmStep_delta_calls, hm]; exact hcell
      · rcases hdisj with ⟨k, hk⟩ | hc
        · exact Or.inl ⟨k, by rw [asmStep_delta_segments]; exact hk⟩
        · exact Or.inr hc
    · by_cases hr : r = r0
      · refine ⟨r, { tc with input := tc.input ++ inp }, ?_, ?_, ?_⟩
        · rw [asmStep_delta_toolCallMap]; exact hmap
        · rw [asmStep_delta_calls, hm, listModify_get?, if_pos hr, hcell]; rfl
        · rcases hdisj with ⟨k, hk⟩ | hc
          · exact Or.inl ⟨k, by rw [asmStep_delta_segments]; exact hk⟩
          · exact Or.inr hc
      · refine ⟨r, tc, ?_, ?_, ?_⟩
        · rw [asmStep_delta_toolCallMap]; exact hmap
        · rw [asmStep_delta_calls, hm, listModify_get?, if_neg hr]; exact hcell
        · rcases hdisj with ⟨k, hk⟩ | hc
          · exact Or.inl ⟨k, by rw [asmStep_delta_segments]; exact hk⟩
          · exact Or.inr hc
  | tool_result id2 res =>
    rcases hm : mapGet s.toolCallMap id2 with _ | r0
    · refine ⟨r, tc, ?_, ?_, ?_⟩
      · rw [asmStep_result_toolCallMap]; exact hmap
      · rw [asmStep_result_calls, hm]; exact hcell
      · rcases hdisj with ⟨k, hk⟩ | hc
        · exact Or.inl ⟨k, by rw [asmStep_result_segments]; exact hk⟩
        · exact Or.inr hc
    · by_cases hr : r = r0
      · refine ⟨r, { tc with result := some res, status := ToolStatus.complete },
          ?_, ?_, Or.inr rfl⟩
        · rw [asmStep_result_toolCallMap]; exact hmap
        · rw [asmStep_result_calls, hm, listModify_get?, if_pos hr, hcell]; rfl
      · refine ⟨r, tc, ?_, ?_, ?_⟩
        · rw [asmStep_result_toolCallMap]; exact hmap
        · rw [asmStep_result_calls, hm, listModify_get?, if_neg hr]; exact hcell
        · rcases hdisj with ⟨k, hk⟩ | hc
          · exact Or.inl ⟨k, by rw [asmStep_result_segments]; exact hk⟩
          · exact Or.inr hc
  | message role =>
    by_cases hrole : role = "assistant"
    · obtain ⟨tc2, h2, h3⟩ :=
        foldModify_rel (R := fun a b => statusRank a.status ≤ statusRank b.status)
          statusRank_toExecuting (fun tc => le_refl _) statusRank_trans
          s.toolCallMap s.calls r tc hcell
      refine ⟨r, tc2, ?_, ?_, ?_⟩
      · rw [asmStep_message_toolCallMap]; exact hmap
      · rw [asmStep_message_calls, if_pos hrole]; exact h2
      · rcases hdisj with ⟨k, hk⟩ | hc
        · exact Or.inl ⟨k, by rw [asmStep_message_segments]; exact hk⟩
        · refine Or.inr ?_
          rw [hc] at h3
          exact complete_of_statusRank_le h3
    · refine ⟨r, tc, ?_, ?_, ?_⟩
      · rw [asmStep_message_toolCallMap]; exact hmap
      · rw [asmStep_message_calls, if_neg hrole]; exact hcell
      · rcases hdisj with ⟨k, hk⟩ | hc
        · exact Or.inl ⟨k, by rw [asmStep_message_segments]; exact hk⟩
        · exact Or.inr hc
  | result sr => exact ⟨r, tc, hmap, hcell, hdisj⟩
  | lifecycle ev => exact ⟨r, tc, hmap, hcell, hdisj⟩

lemma trackedTool_foldl (mid : List StreamEvent) :
    ∀ (s : AsmState) (id : String),
      trackedTool s id → trackedTool (mid.foldl asmStep s) id := by
  induction mid with
  | nil => exact fun s id h => h
  | cons e rest ih =>
    intro s id h
    rw [List.foldl_cons]
    exact ih _ _ (trackedTool_step s id e h)

lemma trackedTool_text_complete (s : AsmState) (id c : String)
    (h : trackedTool s id) :
    toolStatus (asmStep s (StreamEvent.text c)) id = some ToolStatus.complete := by
  obtain ⟨r, tc, hmap, hcell, hdisj⟩ := h
  unfold toolStatus
  rw [asmStep_text_toolCallMap, hmap]
  rcases hl : s.segments.getLast? with _ | seg
  · have hcomp : tc.status = ToolStatus.complete := by
      rcases hdisj with ⟨k, hk⟩ | hc
      · rw [hl] at hk; exact absurd hk (by simp)
      · exact hc
    rw [asmStep_text_calls, hl]
    simp only [Option.map_eq_some']
    exact ⟨tc, hcell, hcomp⟩
  · rcases seg with t | k
    · have hcomp : tc.status = ToolStatus.complete := by
        rcases hdisj with ⟨k, hk⟩ | hc
        · rw [hl] at hk; exact absurd hk (by simp)
        · exact hc
      rw [asmStep_text_calls, hl]
      simp only [Option.map_eq_some']
      exact ⟨tc, hcell, hcomp⟩
    · obtain ⟨tc2, h2, h3⟩ :=
        foldModify_complete_mapped s.toolCallMap s.calls id r tc hmap hcell
      rw [asmStep_text_calls, hl]
      simp only [Option.map_eq_some']
      exact ⟨tc2, h2, h3⟩

/-- C1: Implicit completion — for every canonical event sequence that
contains a tool_use_start for id X and later a text event, the ToolCall
the map associates with X has status complete immediately after the
assembler processes that text event (in particular when no tool_result
for X ever arrives, completion is inferred from the text event). -/
theorem implicit_completion (pre mid : List StreamEvent) (idX nameX c : String) :
    toolStatus
      (processEvents
        (pre ++ StreamEvent.tool_use_start idX nameX :: (mid ++ [StreamEvent.text c])))
      idX = some ToolStatus.complete := by
  unfold processEvents
  rw [List.foldl_append, List.foldl_cons, List.foldl_append, List.foldl_cons,
    List.foldl_nil]
  exact trackedTool_text_complete _ idX c
    (trackedTool_foldl mid _ idX
      (trackedTool_after_start (List.foldl asmStep initAsm pre) idX nameX))

lemma jsTruthy_of_jsGet {o : Option Json} {k : String}
    (h : jsTruthy (jsGet o k) = true) : jsTruthy o = true := by
  rcases o with _ | j
  · simp [jsGet, jsTruthy] at h
  · rcases j with _ | b | n | s | el | fs
    · simp [jsGet, Json.getField, jsTruthy] at h
    · simp [jsGet, Json.getField, jsTruthy] at h
    · simp [jsGet, Json.getField, jsTruthy] at h
    · simp [jsGet, Json.getField, jsTruthy] at h
    · simp [jsGet, Json.getField, jsTruthy] at h
    · rfl

/-- A frame carrying both a contentBlockStart.start.toolUse and a
contentBlockDelta.delta.text, i.e. matching both the tool_use_start and
the text categories at once. -/
def frameTextAndStart : Json :=
  Json.obj [("event", Json.obj
    [("contentBlockStart", Json.obj [("start", Json.obj
        [("toolUse", Json.obj
          [("toolUseId", Json.str "t9"), ("name", Json.str "calc")])])]),
     ("contentBlockDelta", Json.obj [("delta", Json.obj
        [("text", Json.str "hi")])])])]

/-- C2 counterexample: at a frame matching both the tool_use_start and the
text categories, the Schema-B parser emits the text event, not the
tool_use_start event, and does not even record the started toolUseId —
refuting the claimed precedence of tool_use_start over text. -/
theorem converse_precedence_counterexample :
    matchesTextCat frameTextAndStart = true ∧
    matchesToolStartCat frameTextAndStart = true ∧
    (parseConverseData initConverseState frameTextAndStart).1 =
      [JsEvent.text (Json.str "hi")] ∧
    (parseConverseData initConverseState frameTextAndStart).2 =
      initConverseState := by
  refine ⟨?_, ?_, ?_, ?_⟩ <;>
    simp [matchesTextCat, matchesToolStartCat, parseConverseData, frameTextAndStart,
      jsGet, Json.getField, jsonFind, jsTruthy, initConverseState]

/-- C2 amended: the Schema-B parser checks the categories of a frame in the
fixed order text > tool_use_start > tool_use_delta > result (messageStop)
> lifecycle (messageStart) and returns after the first match — the frame
yields exactly the one event of the first category it matches and every
later-checked category is ignored; and the parser never emits tool_result
or message events at all. -/
theorem converse_text_precedence :
    (∀ (st : ConverseState) (j : Json), matchesTextCat j = true →
      parseConverseData st j = ([JsEvent.text (textCatValue j)], st)) ∧
    (∀ (st : ConverseState) (j : Json),
      matchesTextCat j = false → matchesToolStartCat j = true →
      parseConverseData st j =
        ([JsEvent.tool_use_start (jsGet (toolUsePath j) "toolUseId")
            (jsGet (toolUsePath j) "name")],
          ⟨jsGet (toolUsePath j) "toolUseId"⟩)) ∧
    (∀ (st : ConverseState) (j : Json),
      matchesTextCat j = false → matchesToolStartCat j = false →
      matchesToolDeltaCat j = true →
      parseConverseData st j =
        ([JsEvent.tool_use_delta st.currentToolUseId (inputCatValue j)], st)) ∧
    (∀ (st : ConverseState) (j : Json),
      matchesTextCat j = false → matchesToolStartCat j = false →
      matchesToolDeltaCat j = false → matchesStopCat j = true →
      parseConverseData st j = ([JsEvent.result (stopCatValue j)], st)) ∧
    (∀ (st : ConverseState) (j : Json),
      matchesTextCat j = false → matchesToolStartCat j = false →
      matchesToolDeltaCat j = false → matchesStopCat j = false →
      matchesLifecycleCat j = true →
      parseConverseData st j = ([JsEvent.lifecycle "message_start"], st)) ∧
    (∀ (st : ConverseState) (j : Json) (e : JsEvent),
      e ∈ (parseConverseData st j).1 →
      e.isToolResult = false ∧ e.isMessage = false) := by
  refine ⟨?_, ?_, ?_, ?_, ?_, ?_⟩
  · intro st j h
    unfold matchesTextCat at h
    have hev : jsTruthy (j.getField "event") = true :=
      jsTruthy_of_jsGet (jsTruthy_of_jsGet (jsTruthy_of_jsGet h))
    unfold parseConverseData textCatValue
    simp [hev, h]
  · intro st j h1 h2
    unfold matchesTextCat at h1
    unfold matchesToolStartCat at h2
    have hev : jsTruthy (j.getField "event") = true :=
      jsTruthy_of_jsGet (jsTruthy_of_jsGet (jsTruthy_of_jsGet h2))
    unfold parseConverseData toolUsePath
    simp [hev, h1, h2]
  · intro st j h1 h2 h3
    unfold matchesTextCat at h1
    unfold matchesToolStartCat at h2
    unfold matchesToolDeltaCat at h3
    have hev : jsTruthy (j.getField "event") = true :=
      jsTruthy_of_jsGet (jsTruthy_of_jsGet (jsTruthy_of_jsGet (jsTruthy_of_jsGet h3)))
    unfold parseConverseData inputCatValue
    simp [hev, h1, h2, h3]
  · intro st j h1 h2 h3 h4
    unfold matchesTextCat at h1
    unfold matchesToolStartCat at h2
    unfold matchesToolDeltaCat at h3
    unfold matchesStopCat at h4
    have hev : jsTruthy (j.getField "event") = true :=
      jsTruthy_of_jsGet (jsTruthy_of_jsGet h4)
    unfold parseConverseData stopCatValue
    simp [hev, h1, h2, h3, h4]
  · intro st j h1 h2 h3 h4 h5
    unfold matchesTextCat at h1
    unfold matchesToolStartCat at h2
    unfold matchesToolDeltaCat at h3
    unfold matchesStopCat at h4
    unfold matchesLifecycleCat at h5
    have hev : jsTruthy (j.getField "event") = true := jsTruthy_of_jsGet h5
    unfold parseConverseData
    simp [hev, h1, h2, h3, h4, h5]
  · intro st j e he
    simp only [parseConverseData] at he
    split at he
    · split at he
      · simp at he
        subst he
        exact ⟨rfl, rfl⟩
      · split at he
        · simp at he
          subst he
          exact ⟨rfl, rfl⟩
        · split at he
          · simp at he
            subst he
            exact ⟨rfl, rfl⟩
          · split at he
            · simp at he
              subst he
              exact ⟨rfl, rfl⟩
            · split at he
              · simp at he
                subst he
                exact ⟨rfl, rfl⟩
              · simp at he
    · split at he
      · simp at he
        subst he
        exact ⟨rfl, rfl⟩
      · simp at he

/-- A frame matching only the tool_use_start category. -/
def frameStartOnly : Json :=
  Json.obj [("event", Json.obj [("contentBlockStart", Json.obj [("start",
    Json.obj [("toolUse", Json.obj
      [("toolUseId", Json.str "t3"), ("name", Json.str "g")])])])])]

/-- A frame matching only the tool_use_delta category. -/
def frameDeltaOnly : Json :=
  Json.obj [("event", Json.obj [("contentBlockDelta", Json.obj [("delta",
    Json.obj [("toolUse", Json.obj [("input", Json.str "z")])])])])]

/-- A frame matching only the result (messageStop) category. -/
def frameStopOnly : Json :=
  Json.obj [("event", Json.obj [("messageStop", Json.obj
    [("stopReason", Json.str "max_tokens")])])]

/-- A frame matching only the lifecycle (messageStart) category. -/
def frameLifecycleOnly : Json :=
  Json.obj [("event", Json.obj [("messageStart", Json.obj
    [("role", Json.str "assistant")])])]

/-- Witness for converse_text_precedence: the dual-category frame takes the
text branch, and one frame per remaining category takes its own branch. -/
theorem converse_text_precedence_witness :
    parseConverseData initConverseState frameTextAndStart =
      ([JsEvent.text (textCatValue frameTextAndStart)], initConverseState) ∧
    parseConverseData initConverseState frameStartOnly =
      ([JsEvent.tool_use_start (jsGet (toolUsePath frameStartOnly) "toolUseId")
          (jsGet (toolUsePath frameStartOnly) "name")],
        ⟨jsGet (toolUsePath frameStartOnly) "toolUseId"⟩) ∧
    parseConverseData initConverseState frameDeltaOnly =
      ([JsEvent.tool_use_delta initConverseState.currentToolUseId
          (inputCatValue frameDeltaOnly)], initConverseState) ∧
    parseConverseData initConverseState frameStopOnly =
      ([JsEvent.result (stopCatValue frameStopOnly)], initConverseState) ∧
    parseConverseData initConverseState frameLifecycleOnly =
      ([JsEvent.lifecycle "message_start"], initConverseState) ∧
    ((JsEvent.text (Json.str "hi")).isToolResult = false ∧
     (JsEvent.text (Json.str "hi")).isMessage = false) := by
  refine ⟨?_, ?_, ?_, ?_, ?_, ?_⟩
  · exact converse_text_precedence.1 initConverseState frameTextAndStart
      (by simp [matchesTextCat, frameTextAndStart, jsGet, Json.getField, jsonFind, jsTruthy])
  · exact converse_text_precedence.2.1 initConverseState frameStartOnly
      (by simp [matchesTextCat, frameStartOnly, jsGet, Json.getField, jsonFind, jsTruthy])
      (by simp [matchesToolStartCat, frameStartOnly, jsGet, Json.getField, jsonFind, jsTruthy])
  · exact converse_text_precedence.2.2.1 initConverseState frameDeltaOnly
      (by simp [matchesTextCat, frameDeltaOnly, jsGet, Json.getField, jsonFind, jsTruthy])
      (by simp [matchesToolStartCat, frameDeltaOnly, jsGet, Json.getField, jsonFind, jsTruthy])
      (by simp [matchesToolDeltaCat, frameDeltaOnly, jsGet, Json.getField, jsonFind, jsTruthy])
  · exact converse_text_precedence.2.2.2.1 initConverseState frameStopOnly
      (by simp [matchesTextCat, frameStopOnly, jsGet, Json.getField, jsonFind, jsTruthy])
      (by simp [matchesToolStartCat, frameStopOnly, jsGet, Json.getField, jsonFind, jsTruthy])
      (by simp [matchesToolDeltaCat, frameStopOnly, jsGet, Json.getField, jsonFind, jsTruthy])
      (by simp [matchesStopCat, frameStopOnly, jsGet, Json.getField, jsonFind, jsTruthy])
  · exact converse_text_precedence.2.2.2.2.1 initConverseState frameLifecycleOnly
      (by simp [matchesTextCat, frameLifecycleOnly, jsGet, Json.getField, jsonFind, jsTruthy])
      (by simp [matchesToolStartCat, frameLifecycleOnly, jsGet, Json.getField, jsonFind, jsTruthy])
      (by simp [matchesToolDeltaCat, frameLifecycleOnly, jsGet, Json.getField, jsonFind, jsTruthy])
      (by simp [matchesStopCat, frameLifecycleOnly, jsGet, Json.getField, jsonFind, jsTruthy])
      (by simp [matchesLifecycleCat, frameLifecycleOnly, jsGet, Json.getField, jsonFind, jsTruthy])
  · refine converse_text_precedence.2.2.2.2.2 initConverseState frameTextAndStart
      (JsEvent.text (Json.str "hi")) ?_
    have h1 : (parseConverseData initConverseState frameTextAndStart).1 =
        [JsEvent.text (Json.str "hi")] := by
      simp [parseConverseData, frameTextAndStart, jsGet, Json.getField, jsonFind, jsTruthy]
    rw [h1]
    exact List.mem_singleton.mpr rfl

/-- Witness for status_monotone: the text-event sweep moves the streaming
call t1 to complete, a rank-increasing transition. -/
theorem status_monotone_witness :
    (processEvents [StreamEvent.tool_use_start "t1" "calc"]).calls.get? 0 =
      some ⟨"t1", "calc", "", none, ToolStatus.streaming⟩ ∧
    (asmStep (processEvents [StreamEvent.tool_use_start "t1" "calc"])
      (StreamEvent.text "hi")).calls.get? 0 =
      some ⟨"t1", "calc", "", none, ToolStatus.complete⟩ ∧
    statusRank ToolStatus.streaming ≤ statusRank ToolStatus.complete :=
  ⟨by decide, by decide,
   status_monotone (processEvents [StreamEvent.tool_use_start "t1" "calc"])
     (StreamEvent.text "hi") 0
     ⟨"t1", "calc", "", none, ToolStatus.streaming⟩
     ⟨"t1", "calc", "", none, ToolStatus.complete⟩ (by decide) (by decide)⟩

/-- A Schema-B frame starting tool t1: event.contentBlockStart.start.toolUse
with toolUseId t1. -/
def frameStartT1 : Json :=
  Json.obj [("event", Json.obj [("contentBlockStart", Json.obj [("start",
    Json.obj [("toolUse", Json.obj
      [("toolUseId", Json.str "t1"), ("name", Json.str "f")])])])])]

/-- A Schema-B frame carrying a tool-input delta with no id of its own:
event.contentBlockDelta.delta.toolUse.input. -/
def frameDeltaInput : Json :=
  Json.obj [("event", Json.obj [("contentBlockDelta", Json.obj [("delta",
    Json.obj [("toolUse", Json.obj [("input", Json.str "x")])])])])]

/-- C4: the module-level currentToolUseId of converse.ts persists across
turns. A turn S1 that starts tool t1 leaves t1 in the module state; a
following turn S2 whose first frame is an input delta then attributes the
delta to t1, while the same turn S2 run from a freshly loaded module
attributes it to the empty string — so running S1 then S2 does not give
S2 the same events as running S2 alone. -/
theorem cross_turn_state_leak :
    (runConverseData initConverseState [frameStartT1]).2 =
      ⟨some (Json.str "t1")⟩ ∧
    (runConverseData (runConverseData initConverseState [frameStartT1]).2
        [frameDeltaInput]).1 =
      [JsEvent.tool_use_delta (some (Json.str "t1")) (Json.str "x")] ∧
    (runConverseData initConverseState [frameDeltaInput]).1 =
      [JsEvent.tool_use_delta (some (Json.str "")) (Json.str "x")] ∧
    (JsEvent.tool_use_delta (some (Json.str "t1")) (Json.str "x") ≠
      JsEvent.tool_use_delta (some (Json.str "")) (Json.str "x")) := by
  refine ⟨?_, ?_, ?_, ?_⟩
  · simp [runConverseData, parseConverseData, frameStartT1, jsGet,
      Json.getField, jsonFind, jsTruthy, initConverseState]
  · simp [runConverseData, parseConverseData, frameStartT1, frameDeltaInput,
      jsGet, Json.getField, jsonFind, jsTruthy, initConverseState]
  · simp [runConverseData, parseConverseData, frameDeltaInput, jsGet,
      Json.getField, jsonFind, jsTruthy, initConverseState]
  · intro h
    injection h with h1 h2
    injection h1 with h3
    injection h3 with h4
    exact absurd h4 (by decide)

/-- C8 amended: parseConverseChunk is a total function of its line (it
never throws to its caller). A line not starting with the data prefix is
ignored with zero events and no diagnostic; a line whose trimmed payload
is empty is ignored with zero events and no diagnostic; a line whose
nonempty trimmed payload fails to parse as JSON yields zero events and
only the console.debug diagnostic. -/
theorem parse_chunk_never_throws (jsonParse : String → Except String Json)
    (st : ConverseState) (line : String) :
    (line.startsWith "data: " = false →
      parseConverseChunk jsonParse st line = ([], st, none)) ∧
    (line.startsWith "data: " = true → (line.drop 6).trim = "" →
      parseConverseChunk jsonParse st line = ([], st, none)) ∧
    (∀ err, line.startsWith "data: " = true → (line.drop 6).trim ≠ "" →
      jsonParse ((line.drop 6).trim) = Except.error err →
      parseConverseChunk jsonParse st line =
        ([], st, some ("Failed to parse converse event: " ++ (line.drop 6).trim))) := by
  refine ⟨?_, ?_, ?_⟩
  · intro h
    simp [parseConverseChunk, h]
  · intro h1 h2
    simp [parseConverseChunk, h1, h2]
  · intro err h1 h2 h3
    simp [parseConverseChunk, h1, h2, h3]

/-- C8 counterexample: the line consisting of the bare data prefix has an
empty payload; the empty string is not valid JSON (JSON.parse throws on
it, modelled by a parse function that rejects it), yet the parser
returns zero events and no diagnostic at all — the early empty-payload
return happens before JSON.parse, so this failing payload is never
logged. -/
theorem converse_empty_payload_counterexample :
    (fun s => (Except.error s : Except String Json)) "" = Except.error "" ∧
    ("data: ".drop 6).trim = "" ∧
    parseConverseChunk (fun s => Except.error s) initConverseState "data: " =
      ([], initConverseState, none) := by
  have h1 : "data: ".startsWith "data: " = true := by with_unfolding_all rfl
  have h2 : ("data: ".drop 6).trim = "" := by with_unfolding_all rfl
  exact ⟨rfl, h2, by simp [parseConverseChunk, h1, h2]⟩

/-- Witness for parse_chunk_never_throws on the three kinds of line. -/
theorem parse_chunk_never_throws_witness :
    parseConverseChunk (fun s => Except.error s) initConverseState "hello" =
      ([], initConverseState, none) ∧
    parseConverseChunk (fun s => Except.error s) initConverseState "data: oops" =
      ([], initConverseState,
        some ("Failed to parse converse event: " ++ ("data: oops".drop 6).trim)) ∧
    parseConverseChunk (fun s => Except.error s) initConverseState "data: " =
      ([], initConverseState, none) :=
  ⟨(parse_chunk_never_throws (fun s => Except.error s) initConverseState "hello").1
      (by with_unfolding_all rfl),
   (parse_chunk_never_throws (fun s => Except.error s) initConverseState "data: oops").2.2
      (("data: oops".drop 6).trim) (by with_unfolding_all rfl)
      (by
        have h : ("data: oops".drop 6).trim = "oops" := by with_unfolding_all rfl
        rw [h]
        decide)
      rfl,
   (parse_chunk_never_throws (fun s => Except.error s) initConverseState "data: ").2.1
      (by with_unfolding_all rfl) (by with_unfolding_all rfl)⟩

/-- A frame whose result field is an object with no stop_reason field. -/
def frameResultEmpty : Json := Json.obj [("result", Json.obj [])]

/-- C9 counterexample: at the frame whose result is the empty object, the
parser emits a result event whose stopReason is undefined (none), not the
claimed default end_turn. -/
theorem result_default_counterexample :
    (parseConverseData initConverseState frameResultEmpty).1 =
      [JsEvent.result none] ∧
    JsEvent.result none ≠ JsEvent.result (some (Json.str "end_turn")) := by
  constructor
  · simp [parseConverseData, frameResultEmpty, jsGet, Json.getField, jsonFind,
      jsTruthy, jsIsObjectType]
  · intro h
    injection h with h1
    exact Option.noConfusion h1

/-- C9 amended: for a frame with no truthy event field and a truthy result
field, the parser emits one result event whose stopReason is the nested
stop_reason field when result is an object carrying one, undefined when
result is an object without one, and the default end_turn only when
result is a truthy non-object. -/
theorem result_stop_reason :
    (∀ (st : ConverseState) (j : Json) (fs : List (String × Json)) (v : Json),
      jsTruthy (j.getField "event") = false →
      j.getField "result" = some (Json.obj fs) →
      jsonFind fs "stop_reason" = some v →
      (parseConverseData st j).1 = [JsEvent.result (some v)]) ∧
    (∀ (st : ConverseState) (j : Json) (fs : List (String × Json)),
      jsTruthy (j.getField "event") = false →
      j.getField "result" = some (Json.obj fs) →
      jsonFind fs "stop_reason" = none →
      (parseConverseData st j).1 = [JsEvent.result none]) ∧
    (∀ (st : ConverseState) (j r : Json),
      jsTruthy (j.getField "event") = false →
      j.getField "result" = some r →
      jsIsObjectType (some r) = false →
      jsTruthy (some r) = true →
      (parseConverseData st j).1 = [JsEvent.result (some (Json.str "end_turn"))]) := by
  refine ⟨?_, ?_, ?_⟩
  · intro st j fs v hev hres hstop
    unfold parseConverseData
    simp only [hev, hres]
    simp [jsTruthy, jsIsObjectType, jsGet, Json.getField, hstop]
  · intro st j fs hev hres hstop
    unfold parseConverseData
    simp only [hev, hres]
    simp [jsTruthy, jsIsObjectType, jsGet, Json.getField, hstop]
  · intro st j r hev hres hobj htru
    unfold parseConverseData
    simp only [hev, hres]
    simp [htru, hobj]

/-- Witness for result_stop_reason on its three result shapes. -/
theorem result_stop_reason_witness :
    (parseConverseData initConverseState
        (Json.obj [("result", Json.obj [("stop_reason", Json.str "max_tokens")])])).1 =
      [JsEvent.result (some (Json.str "max_tokens"))] ∧
    (parseConverseData initConverseState frameResultEmpty).1 =
      [JsEvent.result none] ∧
    (parseConverseData initConverseState (Json.obj [("result", Json.bool true)])).1 =
      [JsEvent.result (some (Json.str "end_turn"))] :=
  ⟨result_stop_reason.1 initConverseState
      (Json.obj [("result", Json.obj [("stop_reason", Json.str "max_tokens")])])
      [("stop_reason", Json.str "max_tokens")] (Json.str "max_tokens")
      (by simp [Json.getField, jsonFind, jsTruthy])
      (by simp [Json.getField, jsonFind])
      (by simp [jsonFind]),
   result_stop_reason.2.1 initConverseState frameResultEmpty []
      (by simp [frameResultEmpty, Json.getField, jsonFind, jsTruthy])
      (by simp [frameResultEmpty, Json.getField, jsonFind])
      (by simp [jsonFind]),
   result_stop_reason.2.2 initConverseState (Json.obj [("result", Json.bool true)])
      (Json.bool true)
      (by simp [Json.getField, jsonFind, jsTruthy])
      (by simp [Json.getField, jsonFind])
      (by simp [jsIsObjectType])
      (by simp [jsTruthy])⟩
